import Mathlib

/-!
Verification of the `web-apis` acquisition-and-reconciliation pipeline.

The definitions below are a shallow embedding of the JavaScript source:
* `idl_urls_import` module (referred to here by its member names
  `getUniqueURLs`, `urlSort`, `loadURL`, `parse`, `importHTTP`, `importIDL`),
* `lib/idl/BlinkLinkedRunner.es6.js` (`gather` memo and `run`).

Modelling conventions:
* WebIDL parse fragments are opaque to the pipeline (only their count and
  identity as a sequence matter); they are modelled as `Nat`.
* Asynchronous steps (`scrape(url).then(parse)`, `loadURL(url).then(parse)`)
  are modelled as explicit functions `String → Except String ParseRecord`;
  a rejected promise is the `.error` case.
* JavaScript objects used as string-keyed maps are modelled as association
  lists in insertion order (the property order JavaScript guarantees for
  non-index string keys).
* JavaScript string comparison (`<` and default `Array.sort()`) is
  lexicographic by UTF-16 code unit; it is modelled by `charListLe` on the
  character list of the string.
* `Array.prototype.sort` with a consistent comparator is modelled by
  `List.insertionSort`; the claims under verification only depend on the
  resulting order, not on the sort algorithm.
-/

deriving instance DecidableEq for Except

namespace WebApis

/-- One WebIDL parse fragment, opaque to the pipeline (modelled as `Nat`). -/
abbrev Frag := Nat

/-- A per-URL parse record `{url, parses}` as produced by `parse` and stored
in the dataset file. -/
structure ParseRecord where
  url : String
  parses : List Frag
deriving DecidableEq, Repr

/-- Lexicographic comparison of character lists, mirroring JavaScript string
comparison (by code unit; for the strings handled here, by code point). -/
def charListLe : List Char → List Char → Bool
  | [], _ => true
  | _ :: _, [] => false
  | a :: as, b :: bs =>
    if a.toNat < b.toNat then true
    else if b.toNat < a.toNat then false
    else charListLe as bs

/-- JavaScript string `a <= b`. -/
def jsStrLe (a b : String) : Bool := charListLe a.data b.data

/-- The ordering relation used by JavaScript's default `Array.sort()` on
strings. -/
def jsStrRel : String → String → Prop := fun a b => jsStrLe a b = true

instance : DecidableRel jsStrRel := fun a b => instDecidableEqBool (jsStrLe a b) true

/-- JavaScript `array.sort()` on an array of strings. -/
def jsStrSort (l : List String) : List String := List.insertionSort jsStrRel l

/-- lodash `_.uniq`: deduplicate, keeping the first occurrence of each
element in order. -/
def jsUniq (l : List String) : List String :=
  l.foldl (fun acc x => if x ∈ acc then acc else acc ++ [x]) []

/-- JavaScript line terminators, which `.` in a regular expression does not
match (so `^(https?):\/\/(.*)$` fails on strings containing them). -/
def jsLineTerm (c : Char) : Bool :=
  c = '\n' || c = '\r' || c = '\u2028' || c = '\u2029'

/-- A character list is acceptable as the `(.*)` group of the URL pattern. -/
def listOK (l : List Char) : Bool := l.all (fun c => !jsLineTerm c)

/-- `url.match(/^(https?):\/\/(.*)$/)`: returns the scheme and the rest.
The alternation `https?` prefers the longer match, so `https://…` is
reported with scheme `https`. -/
def jsMatch (url : String) : Option (String × String) :=
  match url.data with
  | 'h' :: 't' :: 't' :: 'p' :: 's' :: ':' :: '/' :: '/' :: rest =>
    if listOK rest then some ("https", String.mk rest) else none
  | 'h' :: 't' :: 't' :: 'p' :: ':' :: '/' :: '/' :: rest =>
    if listOK rest then some ("http", String.mk rest) else none
  | _ => none

/-- The `urlMap` object of `getUniqueURLs`: rest-of-URL ↦ observed schemes,
as an association list in insertion order. -/
abbrev UrlMap := List (String × List String)

/-- `urlMap[key]` (undefined modelled as `none`). -/
def lookupVal : UrlMap → String → Option (List String)
  | [], _ => none
  | (k, v) :: rest, key => if k = key then some v else lookupVal rest key

/-- `urlMap[key] = v`: update in place if present, append if absent. -/
def setVal : UrlMap → String → List String → UrlMap
  | [], key, v => [(key, v)]
  | (k, w) :: rest, key, v =>
    if k = key then (k, v) :: rest else (k, w) :: setVal rest key v

/-- `delete urlMap[key]`. -/
def delKey : UrlMap → String → UrlMap
  | [], _ => []
  | kv :: rest, key =>
    if kv.1 = key then delKey rest key else kv :: delKey rest key

/-- `Object.getOwnPropertyNames(urlMap)` in insertion order. -/
def keysOf (m : UrlMap) : List String := m.map Prod.fst

/-- Lines 141-145 of the import module: record `scheme` for a key —
`if (!urlMap[key].filter(s => s === scheme)[0]) { push; sort; }`.
The found element is tested for truthiness, hence the `= ""` case. -/
def pushScheme (ss : List String) (scheme : String) : List String :=
  match (ss.filter (fun s => s = scheme)).head? with
  | some s => if s = "" then jsStrSort (ss ++ [scheme]) else ss
  | none => jsStrSort (ss ++ [scheme])

/-- The `urls.forEach` pass of `getUniqueURLs` (lines 135-146): build the
scheme map. `console.assert(match)` on a failed match aborts (Node 6
`console.assert` throws), modelled as `none`. -/
def buildMap : List String → UrlMap → Option UrlMap
  | [], m => some m
  | url :: rest, m =>
    match jsMatch url with
    | none => none
    | some (scheme, key) =>
      buildMap rest (setVal m key (pushScheme ((lookupVal m key).getD []) scheme))

/-- One iteration of the trailing-slash canonicalization pass
(lines 147-154): if `urlMap[url + '/']` exists, merge `urlMap[url]` into it
(uniq, then sort) and delete `urlMap[url]`. -/
def mergeStep (m : UrlMap) (url : String) : UrlMap :=
  match lookupVal m (url ++ "/") with
  | none => m
  | some ssSlash =>
    delKey (setVal m (url ++ "/") (jsStrSort (jsUniq (ssSlash ++ (lookupVal m url).getD [])))) url

/-- The trailing-slash pass: iterate over a snapshot of the keys while
mutating the live map. -/
def mergeSlash (m : UrlMap) : UrlMap := (keysOf m).foldl mergeStep m

/-- Lines 155-159: emit `scheme://rest`, the scheme being `urlMap[rest].pop()`
(the last element after sorting, so `https` wins over `http`; an empty array
would interpolate `undefined`). -/
def emitURL (kv : String × List String) : String :=
  (kv.2.getLast?.getD "undefined") ++ "://" ++ kv.1

/-- `getUniqueURLs(urls)` (lines 133-160): canonicalize and deduplicate raw
URLs. `none` models the thrown assertion on a malformed URL. -/
def getUniqueURLs (urls : List String) : Option (List String) :=
  (buildMap urls []).map (fun m => (mergeSlash m).map emitURL)

/-- The order imposed by the `urlSort` comparator (lines 162-170): ascending
by the `url` field. -/
def urlSortLe (a b : ParseRecord) : Prop := jsStrLe a.url b.url = true

instance : DecidableRel urlSortLe := fun a b => instDecidableEqBool (jsStrLe a.url b.url) true

/-- `array.sort(urlSort)` on parse records. -/
def sortByURL (l : List ParseRecord) : List ParseRecord := List.insertionSort urlSortLe l

/-- `getCacheFileName(url)` (lines 123-125): the filesystem-safe cache key,
`url.replace(/[^a-zA-Z0-9]/g, '_')`. Distinct URLs can collide: every
non-alphanumeric character becomes `_`. -/
def getCacheFileName (url : String) : String :=
  String.mk (url.data.map (fun c => if c.isAlphanum then c else '_'))

/-- The for-loop of `parse` (lines 218-238): run the external grammar
analyzer on each candidate content, concatenating the fragments of the
successful runs. `parseString` models `webidl2-js`'s `parser.parseString`:
`some res` when `res[0]` is truthy (with `res[1]` the fragments), `none`
otherwise ("not IDL"). -/
def extractParses (parseString : String → Option (List Frag)) : List String → List Frag
  | [] => []
  | idl :: rest =>
    (match parseString idl with
     | some res => res
     | none => []) ++ extractParses parseString rest

/-- `parse({url, data})` (lines 208-248), after the `data = [data]`
normalization. `cached` is the parse-record cache entry for the URL (the
fast path returns it unchanged and persists nothing). On a cache miss the
candidates are parsed; zero extracted fragments throw
`Expected parse success from <url>`; otherwise `{url, parses}` is persisted
and returned. The `Bool` records whether the result was persisted to the
cache. -/
def parse (parseString : String → Option (List Frag)) (cached : Option ParseRecord)
    (url : String) (data : List String) : Except String (ParseRecord × Bool) :=
  match cached with
  | some rec => .ok (rec, false)
  | none =>
    let parses := extractParses parseString data
    if parses.length = 0 then .error ("Expected parse success from " ++ url)
    else .ok ({ url := url, parses := parses }, true)

/-- `scrapeURLs` inside `importHTTP` (lines 283-293): map every URL through
`scrape(url).then(parse)`, catching any failure and degrading it to
`{url, parses: []}`. The batch is total: one record per input URL. -/
def scrapeURLs (step : String → Except String ParseRecord) (urls : List String) :
    List ParseRecord :=
  urls.map (fun url =>
    match step url with
    | .ok rec => rec
    | .error _ => { url := url, parses := [] })

/-- Lines 312-325 of `importHTTP`: mark for retry every previously known URL
with no record this pass (and a non-empty prior record), or with a strictly
decreased parse count. -/
def retrySet (prevData : List ParseRecord) (allData : List ParseRecord) : List String :=
  prevData.filterMap (fun prevDatum =>
    match (allData.filter (fun d => d.url = prevDatum.url)).head? with
    | none => if prevDatum.parses.length > 0 then some prevDatum.url else none
    | some datum =>
      if datum.parses.length < prevDatum.parses.length then some prevDatum.url else none)

/-- The second-pass resolution loop of `importHTTP` (lines 340-397).
Mirrors the source faithfully: `firstDatum` and `secondDatum` are both
computed by the identical `allData.filter(d => d.url === url)[0]`
expression (lines 341-342) — the second-pass scrape results are never
consulted. When no datum exists, line 346 reads `prevDatum.url` with
`prevDatum` not in scope, a `ReferenceError` in strict mode, which rejects
the batch; modelled as `.error`. -/
def retryLoop (prevData : List ParseRecord) :
    List String → List ParseRecord → Except String (List ParseRecord)
  | [], allData => .ok allData
  | url :: rest, allData =>
    let firstDatum := (allData.filter (fun d => d.url = url)).head?
    let secondDatum := (allData.filter (fun d => d.url = url)).head?
    match secondDatum with
    | none => .error "ReferenceError: prevDatum is not defined"
    | some sd =>
      match firstDatum with
      | none => retryLoop prevData rest (sortByURL (allData ++ [sd]))
      | some fd =>
        if sd.parses.length < fd.parses.length then retryLoop prevData rest allData
        else if sd.parses.length = fd.parses.length then retryLoop prevData rest allData
        else
          match (prevData.filter (fun d => d.url = url)).head? with
          | none => retryLoop prevData rest allData
          | some prevDatum =>
            if sd.parses.length < prevDatum.parses.length then retryLoop prevData rest allData
            else if sd.parses.length = prevDatum.parses.length then
              retryLoop prevData rest allData
            else retryLoop prevData rest (sortByURL (allData ++ [sd]))

/-- `importHTTP(urls, path)` (lines 251-407). `firstPass` and `secondPass`
model `scrape(url).then(parse)` for the two scraper-manager configurations;
`prevData` is the parsed content of the output file (`none` when missing or
corrupt). The second-pass scrape results are computed (line 337) but the
resolution loop never reads them, mirroring the source. The returned
dataset is the value written to the output path (line 399). -/
def importHTTP (firstPass secondPass : String → Except String ParseRecord)
    (prevData : Option (List ParseRecord)) (urls : List String) :
    Except String (List ParseRecord) :=
  match getUniqueURLs urls with
  | none => .error "AssertionError: malformed URL"
  | some uniqueURLs =>
    let seleniumData := scrapeURLs firstPass uniqueURLs
    let allData := sortByURL seleniumData
    let retryURLs :=
      match prevData with
      | none => []
      | some prev => retrySet prev allData
    let _secondPassData := scrapeURLs secondPass retryURLs
    retryLoop (prevData.getD []) retryURLs allData

/-- `importIDL(urls, path)` (lines 409-426): dedupe and sort the URLs, then
map each through `loadURL(url).then(parse)` with the same per-URL catch
degrading failures to `{url, parses: []}`; the result list is written to
the output path. -/
def importIDL (step : String → Except String ParseRecord) (urls : List String) :
    List ParseRecord :=
  (jsStrSort (jsUniq urls)).map (fun url =>
    match step url with
    | .ok rec => rec
    | .error _ => { url := url, parses := [] })

/-- A JavaScript value as seen by the alignment loop of
`BlinkLinkedRunner`'s `gather` memo: either an array (`node`) or a
non-array value (`leaf`, whose `.length` is `undefined`). -/
inductive Nest (α : Type) where
  | leaf : α → Nest α
  | node : List (Nest α) → Nest α

/-- The alignment loop of `gather` (BlinkLinkedRunner.es6.js lines 56-59):
`while (parses.length !== urls.length) { if (parses.length !== 1) throw
new Error('Malformed memo output'); parses = parses[0]; }`. A non-array
`parses` has `undefined` length, which differs from both the URL count and
`1`, hence also throws. -/
def alignParses {α : Type} (n : Nat) : Nest α → Except String (Nest α)
  | .leaf _ => .error "Malformed memo output"
  | .node l =>
    if l.length = n then .ok (.node l)
    else
      match l with
      | [x] => alignParses n x
      | _ => .error "Malformed memo output"

/-- The gather stage's alignment of the delegate parse list against the URL
list (`output.output`). -/
def gatherAlign {α : Type} (urls : List String) (delegates : Nest α) :
    Except String (Nest α) :=
  alignParses urls.length delegates

/-- A delegate parse list that cannot be aligned with a URL count `n`: at
some unwrapping depth its length differs from `n` and is not `1` (a
non-array value counts, its length being `undefined`). -/
inductive Misaligned (n : Nat) : Nest Frag → Prop where
  | leaf : ∀ a, Misaligned n (.leaf a)
  | node : ∀ l, l.length ≠ n → l.length ≠ 1 → Misaligned n (.node l)
  | unwrap : ∀ x, 1 ≠ n → Misaligned n x → Misaligned n (.node [x])

/-- The mutable state of a `BlinkLinkedRunner` relevant to `run()`
(BlinkLinkedRunner.es6.js lines 104-148): the re-entrancy flag, the two
accumulator maps, and whether a pipeline is currently bound. -/
structure RunnerState where
  running : Bool
  urlsToFiles : List (String × List String)
  urlsToParses : List (String × List Frag)
  pipelineBound : Bool
deriving DecidableEq, Repr

/-- The state after `init` (lines 27-30). -/
def initRunner : RunnerState :=
  { running := false, urlsToFiles := [], urlsToParses := [], pipelineBound := false }

/-- Entry of `run()` (lines 104-121): if already running, throw
`BlinkLinkedRunner already running` before touching any state; otherwise
set the flag, clear the accumulators and bind a fresh pipeline. The
returned `Option String` is the thrown error, if any. -/
def runCall (s : RunnerState) : RunnerState × Option String :=
  if s.running then (s, some "BlinkLinkedRunner already running")
  else
    ({ running := true, urlsToFiles := [], urlsToParses := [], pipelineBound := true },
     none)

/-- How the `run()` promise settles (lines 136-148). -/
inductive GlobOutcome where
  | streamError
  | streamEnd

/-- The `finish` closure (lines 122-126): unbind the pipeline and clear the
running flag. -/
def finishRun (s : RunnerState) : RunnerState :=
  { s with running := false, pipelineBound := false }

/-- Settlement of a run: the `error` handler chains `finish` (line 139),
but the `end` handler (lines 142-147) resolves through `onDataReady`
without ever calling `finish`, leaving `running` set. -/
def completeRun (s : RunnerState) : GlobOutcome → RunnerState
  | .streamError => finishRun s
  | .streamEnd => s

/-- The canonical scheme for a set of observed schemes: `https` wins over
`http` (it sorts last). Specification-side vocabulary for stating the
canonicalizer claims. -/
def maxScheme (s1 s2 : String) : String :=
  if s1 = "https" ∨ s2 = "https" then "https" else "http"

/-- A well-formed scheme list in the `urlMap`: non-empty and containing
only `http`/`https`. -/
def GoodVal (ss : List String) : Prop :=
  ss ≠ [] ∧ ∀ s ∈ ss, s = "http" ∨ s = "https"

/-- Invariant of the `urlMap`: distinct keys, every key acceptable to the
URL pattern, every value a well-formed scheme list. -/
def GoodMap (m : UrlMap) : Prop :=
  (keysOf m).Nodup ∧ ∀ kv ∈ m, listOK kv.1.data = true ∧ GoodVal kv.2

/-- After the trailing-slash pass, no key coexists with its
slash-terminated variant. -/
def NoSlashPairs (m : UrlMap) : Prop :=
  ∀ k ∈ keysOf m, (k ++ "/") ∉ keysOf m

end WebApis

namespace WebApis

/-! ### Order properties of the JavaScript string comparison -/

theorem charListLe_trans :
    ∀ a b c, charListLe a b = true → charListLe b c = true → charListLe a c = true := by
  intro a
  induction a with
  | nil => intro b c _ _; rfl
  | cons x xs ih =>
    intro b c hab hbc
    cases b with
    | nil => simp [charListLe] at hab
    | cons y ys =>
      cases c with
      | nil => simp [charListLe] at hbc
      | cons z zs =>
        simp only [charListLe] at hab hbc ⊢
        rcases Nat.lt_trichotomy x.toNat y.toNat with h1 | h1 | h1 <;>
          rcases Nat.lt_trichotomy y.toNat z.toNat with h2 | h2 | h2
        · simp [Nat.lt_trans h1 h2]
        · simp [h2 ▸ h1]
        · simp [Nat.lt_asymm h2, h2] at hbc
        · simp [h1 ▸ h2]
        · have hxz : x.toNat = z.toNat := h1.trans h2
          simp only [h1, Nat.lt_irrefl, if_false] at hab
          simp only [h2, Nat.lt_irrefl, if_false] at hbc
          simp [hxz, Nat.lt_irrefl, ih ys zs hab hbc]
        · simp [Nat.lt_asymm h2, h2] at hbc
        · simp [Nat.lt_asymm h1, h1] at hab
        · simp [Nat.lt_asymm h1, h1] at hab
        · simp [Nat.lt_asymm h1, h1] at hab

theorem charListLe_total : ∀ a b, charListLe a b = true ∨ charListLe b a = true := by
  intro a
  induction a with
  | nil => intro b; left; rfl
  | cons x xs ih =>
    intro b
    cases b with
    | nil => right; rfl
    | cons y ys =>
      simp only [charListLe]
      rcases Nat.lt_trichotomy x.toNat y.toNat with h | h | h
      · simp [h]
      · simp only [h, Nat.lt_irrefl, if_false]
        exact ih ys
      · simp [h, Nat.lt_asymm h]

instance : IsTrans String jsStrRel :=
  ⟨fun a b c => charListLe_trans a.data b.data c.data⟩

instance : IsTotal String jsStrRel :=
  ⟨fun a b => charListLe_total a.data b.data⟩

instance : IsTrans ParseRecord urlSortLe :=
  ⟨fun a b c => charListLe_trans a.url.data b.url.data c.url.data⟩

instance : IsTotal ParseRecord urlSortLe :=
  ⟨fun a b => charListLe_total a.url.data b.url.data⟩

theorem jsStrSort_sorted (l : List String) : List.Sorted jsStrRel (jsStrSort l) :=
  List.sorted_insertionSort jsStrRel l

theorem jsStrSort_perm (l : List String) : (jsStrSort l).Perm l :=
  List.perm_insertionSort jsStrRel l

theorem sortByURL_sorted (l : List ParseRecord) : List.Sorted urlSortLe (sortByURL l) :=
  List.sorted_insertionSort urlSortLe l

theorem sortByURL_perm (l : List ParseRecord) : (sortByURL l).Perm l :=
  List.perm_insertionSort urlSortLe l

/-! ### Properties of `jsUniq` -/

theorem jsUniq_go_mem :
    ∀ (l acc : List String) (x : String),
      x ∈ l.foldl (fun acc x => if x ∈ acc then acc else acc ++ [x]) acc ↔
        x ∈ acc ∨ x ∈ l := by
  intro l
  induction l with
  | nil => intro acc x; simp
  | cons a rest ih =>
    intro acc x
    simp only [List.foldl_cons]
    rw [ih]
    by_cases ha : a ∈ acc
    · simp only [if_pos ha, List.mem_cons]
      constructor
      · rintro (h | h)
        · exact Or.inl h
        · exact Or.inr (Or.inr h)
      · rintro (h | h | h)
        · exact Or.inl h
        · exact Or.inl (h ▸ ha)
        · exact Or.inr h
    · simp only [if_neg ha, List.mem_append, List.mem_singleton, List.mem_cons]
      tauto

theorem jsUniq_mem (l : List String) (x : String) : x ∈ jsUniq l ↔ x ∈ l := by
  unfold jsUniq
  rw [jsUniq_go_mem]
  simp

theorem jsUniq_go_nodup :
    ∀ (l acc : List String),
      acc.Nodup →
      (l.foldl (fun acc x => if x ∈ acc then acc else acc ++ [x]) acc).Nodup := by
  intro l
  induction l with
  | nil => intro acc h; exact h
  | cons a rest ih =>
    intro acc h
    simp only [List.foldl_cons]
    by_cases ha : a ∈ acc
    · rw [if_pos ha]; exact ih acc h
    · rw [if_neg ha]
      refine ih _ ?_
      simp [List.nodup_append, h, ha]

theorem jsUniq_nodup (l : List String) : (jsUniq l).Nodup :=
  jsUniq_go_nodup l [] List.nodup_nil

theorem jsUniq_ne_nil (l : List String) (h : l ≠ []) : jsUniq l ≠ [] := by
  cases l with
  | nil => exact absurd rfl h
  | cons a rest =>
    intro hcon
    have : a ∈ jsUniq (a :: rest) := (jsUniq_mem _ _).mpr (List.mem_cons_self a rest)
    rw [hcon] at this
    exact absurd this (List.not_mem_nil a)

/-! ### Extraction lemmas for `parse` -/

theorem extractParses_all_empty
    (ps : String → Option (List Frag)) :
    ∀ data : List String,
      (∀ idl ∈ data, ∀ res, ps idl = some res → res = []) →
      extractParses ps data = [] := by
  intro data
  induction data with
  | nil => intro _; rfl
  | cons idl rest ih =>
    intro h
    simp only [extractParses]
    have hrest : extractParses ps rest = [] :=
      ih (fun i hi res hres => h i (List.mem_cons_of_mem _ hi) res hres)
    rw [hrest]
    cases hps : ps idl with
    | none => simp
    | some res =>
      have : res = [] := h idl (List.mem_cons_self _ _) res hps
      simp [this]

theorem extractParses_some_nonempty
    (ps : String → Option (List Frag)) :
    ∀ data : List String,
      (∃ idl ∈ data, ∃ res, ps idl = some res ∧ res ≠ []) →
      extractParses ps data ≠ [] := by
  intro data
  induction data with
  | nil => rintro ⟨idl, h, _⟩; exact absurd h (List.not_mem_nil idl)
  | cons a rest ih =>
    rintro ⟨idl, hmem, res, hres, hne⟩
    simp only [extractParses]
    intro hcon
    rcases List.append_eq_nil.mp hcon with ⟨h1, h2⟩
    rcases List.mem_cons.mp hmem with h | h
    · subst h
      rw [hres] at h1
      exact hne h1
    · exact ih ⟨idl, h, res, hres, hne⟩ h2

/-- C4: on a cache miss, `parse` returns a persisted `{url, parses}` record
with at least one fragment when some candidate content yields fragments,
and throws the no-data error `Expected parse success from <url>` (persisting
nothing) when zero fragments were extracted from all candidates. -/
theorem parse_persists_or_throws (ps : String → Option (List Frag))
    (url : String) (data : List String) :
    ((∃ idl ∈ data, ∃ res, ps idl = some res ∧ res ≠ []) →
      ∃ rec, parse ps none url data = .ok (rec, true) ∧ rec.url = url ∧ rec.parses ≠ []) ∧
    ((∀ idl ∈ data, ∀ res, ps idl = some res → res = []) →
      parse ps none url data = .error ("Expected parse success from " ++ url)) := by
  constructor
  · intro h
    have hne := extractParses_some_nonempty ps data h
    refine ⟨{ url := url, parses := extractParses ps data }, ?_, rfl, hne⟩
    unfold parse
    rw [if_neg (by simpa using List.length_eq_zero.not.mpr hne)]
  · intro h
    have hnil := extractParses_all_empty ps data h
    unfold parse
    rw [if_pos (by simp [hnil])]

theorem parse_persists_or_throws_witness :
    (∃ rec, parse (fun s => if s = "idl" then some [1, 2] else none) none "u" ["x", "idl"]
        = .ok (rec, true) ∧ rec.url = "u" ∧ rec.parses ≠ []) ∧
    parse (fun _ => none) none "u" ["x"] = .error ("Expected parse success from " ++ "u") :=
  ⟨(parse_persists_or_throws (fun s => if s = "idl" then some [1, 2] else none) "u"
      ["x", "idl"]).1 ⟨"idl", by decide, [1, 2], by decide, by decide⟩,
   (parse_persists_or_throws (fun _ => none) "u" ["x"]).2
      (fun idl _ res hres => by cases hres)⟩

/-- C5: a failing per-URL scrape-or-parse step is caught and degraded to
`{url, parses: []}`, and the batch (importHTTP's `scrapeURLs`, importIDL's
`Promise.all`) is total — it resolves with one record per input URL. -/
theorem per_url_failure_degraded (step g : String → Except String ParseRecord)
    (urls urls2 : List String) :
    (scrapeURLs step urls).length = urls.length ∧
    (∀ u e, u ∈ urls → step u = .error e →
      ParseRecord.mk u [] ∈ scrapeURLs step urls) ∧
    (importIDL g urls2).length = (jsStrSort (jsUniq urls2)).length ∧
    (∀ u e, u ∈ jsStrSort (jsUniq urls2) → g u = .error e →
      ParseRecord.mk u [] ∈ importIDL g urls2) := by
  refine ⟨List.length_map _ _, ?_, List.length_map _ _, ?_⟩
  · intro u e hu hstep
    refine List.mem_map.mpr ⟨u, hu, ?_⟩
    rw [hstep]
  · intro u e hu hstep
    refine List.mem_map.mpr ⟨u, hu, ?_⟩
    rw [hstep]

theorem per_url_failure_degraded_witness :
    ParseRecord.mk "a" [] ∈ scrapeURLs (fun _ => .error "boom") ["a"] ∧
    ParseRecord.mk "b" [] ∈ importIDL (fun _ => .error "boom") ["b"] :=
  ⟨(per_url_failure_degraded (fun _ => .error "boom") (fun _ => .error "boom")
      ["a"] ["b"]).2.1 "a" "boom" (by decide) rfl,
   (per_url_failure_degraded (fun _ => .error "boom") (fun _ => .error "boom")
      ["a"] ["b"]).2.2.2 "b" "boom" (by decide) rfl⟩

/-- C9: in the gather stage, a delegate parse list that cannot be aligned
with the URL list — its length differs from the URL count and is not 1, at
every unwrapping depth reached — makes the stage throw
`Malformed memo output` instead of producing a result. -/
theorem gather_misaligned_throws (urls : List String) (p : Nest Frag)
    (h : Misaligned urls.length p) :
    gatherAlign urls p = .error "Malformed memo output" := by
  unfold gatherAlign
  induction h with
  | leaf a => rfl
  | node l h1 h2 =>
    unfold alignParses
    rw [if_neg h1]
    match l, h2 with
    | [], _ => rfl
    | [x], h2 => exact absurd rfl h2
    | x :: y :: rest, _ => rfl
  | unwrap x hne _ ih =>
    unfold alignParses
    rw [if_neg (by simp only [List.length_singleton]; exact hne)]
    exact ih

theorem gather_misaligned_throws_witness :
    gatherAlign ["a", "b"] (Nest.node ([] : List (Nest Frag)))
      = .error "Malformed memo output" :=
  gather_misaligned_throws ["a", "b"] (Nest.node [])
    (Misaligned.node [] (by decide) (by decide))

/-- C10 counterexample: a run that completes successfully (the glob
stream's `end` path) leaves the `running` flag set, so a later `run()`
still throws `BlinkLinkedRunner already running` — `run()` is not
re-enterable after a successful completion, contrary to the claim. -/
theorem run_after_success_still_blocked :
    (completeRun (runCall initRunner).1 .streamEnd).running = true ∧
    (runCall (completeRun (runCall initRunner).1 .streamEnd)).2
      = some "BlinkLinkedRunner already running" := by decide

/-- C10 (amended): calling `run()` while a run is in flight throws
`BlinkLinkedRunner already running` and leaves the state untouched; the
`finish` handler of the glob-stream error path clears the flag (making
`run()` re-enterable after a failure), but a successful completion never
runs `finish`, so `run()` keeps throwing afterwards. -/
theorem run_reentrancy (s : RunnerState) :
    (s.running = true → runCall s = (s, some "BlinkLinkedRunner already running")) ∧
    (completeRun s .streamError).running = false ∧
    (s.running = true →
      (runCall (completeRun s .streamEnd)).2 = some "BlinkLinkedRunner already running") := by
  refine ⟨fun h => ?_, rfl, fun h => ?_⟩
  · simp [runCall, h]
  · simp [completeRun, runCall, h]

theorem run_reentrancy_witness :
    runCall ((runCall initRunner).1)
      = ((runCall initRunner).1, some "BlinkLinkedRunner already running") ∧
    (runCall (completeRun (runCall initRunner).1 .streamEnd)).2
      = some "BlinkLinkedRunner already running" :=
  ⟨(run_reentrancy (runCall initRunner).1).1 (by decide),
   (run_reentrancy (runCall initRunner).1).2.2 (by decide)⟩

/-- C2: with a prior count of 3 for the URL, a first pass yielding 2
fragments and a second pass yielding 4, the written dataset keeps the
2-fragment first-pass record — the second-pass data is never consulted
(`secondDatum` is computed from the first-pass array, source lines
341-342), so the claimed 4-fragment acceptance does not happen. -/
theorem importHTTP_second_pass_ignored :
    importHTTP (fun u => .ok ⟨u, [10, 20]⟩) (fun u => .ok ⟨u, [10, 20, 30, 40]⟩)
      (some [⟨"https://a.com/", [1, 2, 3]⟩]) ["https://a.com/"]
      = .ok [⟨"https://a.com/", [10, 20]⟩] := by decide

/-- C3: a retry URL with no record in `allData` (here: a previously known
URL absent from this run's URL list) makes the resolution loop hit line
346, which reads `prevDatum.url` with `prevDatum` not in scope — a
`ReferenceError` that rejects the batch instead of logging and
continuing. -/
theorem importHTTP_missing_retry_record_rejects :
    importHTTP (fun u => .ok ⟨u, [5]⟩) (fun u => .ok ⟨u, [7]⟩)
      (some [⟨"https://b.com/", [1]⟩]) ["https://a.com/"]
      = .error "ReferenceError: prevDatum is not defined" := by decide

/-- C1 counterexample: prior dataset has 3 fragments for the URL, both
passes produce 0-fragment records (never ≥ 3), yet the written dataset
holds only the empty first-pass record — the prior entry is silently
dropped. -/
theorem importHTTP_prior_entry_dropped :
    importHTTP (fun u => .ok ⟨u, []⟩) (fun u => .ok ⟨u, []⟩)
      (some [⟨"https://a.com/", [1, 2, 3]⟩]) ["https://a.com/"]
      = .ok [⟨"https://a.com/", []⟩] ∧
    (⟨"https://a.com/", [1, 2, 3]⟩ : ParseRecord)
      ∉ [(⟨"https://a.com/", ([] : List Frag)⟩ : ParseRecord)] := by decide

theorem retryLoop_ok (prev : List ParseRecord) :
    ∀ (rs : List String) (ad d : List ParseRecord),
      retryLoop prev rs ad = .ok d → d = ad := by
  intro rs
  induction rs with
  | nil =>
    intro ad d h
    simpa [retryLoop] using h.symm
  | cons url rest ih =>
    intro ad d h
    simp only [retryLoop] at h
    cases hX : (ad.filter (fun x => x.url = url)).head? with
    | none => rw [hX] at h; cases h
    | some sd =>
      rw [hX] at h
      simp only [Nat.lt_irrefl, if_false, if_pos rfl] at h
      exact ih ad d h

/-- C1 (amended): the dataset importHTTP writes is exactly the sorted
first-pass records for the canonical URLs — neither prior entries nor
second-pass results are ever merged in. In the claimed scenario the
regressed first-pass record for `u`, not the prior entry, is written (and
if the first pass produced no record at all the run rejects, see C3). -/
theorem importHTTP_dataset_is_first_pass
    (f s : String → Except String ParseRecord) (prev : Option (List ParseRecord))
    (urls : List String) (d : List ParseRecord)
    (h : importHTTP f s prev urls = .ok d) :
    ∃ us, getUniqueURLs urls = some us ∧ d = sortByURL (scrapeURLs f us) := by
  unfold importHTTP at h
  cases hg : getUniqueURLs urls with
  | none => rw [hg] at h; cases h
  | some us =>
    rw [hg] at h
    exact ⟨us, rfl, retryLoop_ok _ _ _ _ h⟩

theorem importHTTP_dataset_is_first_pass_witness :
    ∃ us, getUniqueURLs ["https://a.com/"] = some us ∧
      [(⟨"https://a.com/", ([] : List Frag)⟩ : ParseRecord)]
        = sortByURL (scrapeURLs (fun u => .ok ⟨u, []⟩) us) :=
  importHTTP_dataset_is_first_pass (fun u => .ok ⟨u, []⟩) (fun u => .ok ⟨u, []⟩)
    (some [⟨"https://a.com/", [1, 2, 3]⟩]) ["https://a.com/"]
    [⟨"https://a.com/", []⟩] (by decide)

end WebApis

namespace WebApis

theorem str_len_ne {a b : String} (h : a.data.length ≠ b.data.length) : a ≠ b :=
  fun he => h (by rw [he])

theorem data_append_slash (r : String) : (r ++ "/").data = r.data ++ ['/'] := by
  rw [String.data_append]

theorem slash_ne_right (r : String) : ¬ (r = r ++ "/") := by
  intro he
  have h := congrArg (fun s : String => s.data.length) he
  simp only [data_append_slash, List.length_append, List.length_singleton] at h
  omega

theorem slash_ne_left (r : String) : ¬ (r ++ "/" = r) := fun h => slash_ne_right r h.symm

theorem two_slash_ne (r : String) : ¬ (r = (r ++ "/") ++ "/") := by
  intro he
  have h := congrArg (fun s : String => s.data.length) he
  simp only [data_append_slash, List.length_append, List.length_singleton] at h
  omega

theorem jsMatch_cons_http (l : List Char) :
    jsMatch (String.mk ('h' :: 't' :: 't' :: 'p' :: ':' :: '/' :: '/' :: l)) =
      if listOK l then some ("http", String.mk l) else none := rfl

theorem jsMatch_cons_https (l : List Char) :
    jsMatch (String.mk ('h' :: 't' :: 't' :: 'p' :: 's' :: ':' :: '/' :: '/' :: l)) =
      if listOK l then some ("https", String.mk l) else none := rfl

theorem str_as_http (r : String) :
    "http" ++ "://" ++ r = String.mk ('h' :: 't' :: 't' :: 'p' :: ':' :: '/' :: '/' :: r.data) := by
  apply String.ext
  rw [String.data_append, String.data_append]
  rfl

theorem str_as_https (r : String) :
    "https" ++ "://" ++ r = String.mk ('h' :: 't' :: 't' :: 'p' :: 's' :: ':' :: '/' :: '/' :: r.data) := by
  apply String.ext
  rw [String.data_append, String.data_append]
  rfl

theorem jsMatch_scheme (s r : String) (hs : s = "http" ∨ s = "https")
    (hr : listOK r.data = true) : jsMatch (s ++ "://" ++ r) = some (s, r) := by
  rcases hs with h | h <;> subst h
  · rw [str_as_http, jsMatch_cons_http, if_pos hr]
  · rw [str_as_https, jsMatch_cons_https, if_pos hr]

theorem listOK_slash (r : String) (hr : listOK r.data = true) :
    listOK (r ++ "/").data = true := by
  rw [data_append_slash]
  unfold listOK at hr ⊢
  rw [List.all_append, hr]
  rfl

end WebApis

namespace WebApis

theorem getUnique_same_rest (s1 s2 r : String) (hs1 : s1 = "http" ∨ s1 = "https")
    (hs2 : s2 = "http" ∨ s2 = "https") (hr : listOK r.data = true) :
    getUniqueURLs [s1 ++ "://" ++ r, s2 ++ "://" ++ r] =
      some [(pushScheme (pushScheme [] s1) s2).getLast?.getD "undefined" ++ "://" ++ r] := by
  have h1 := jsMatch_scheme s1 r hs1 hr
  have h2 := jsMatch_scheme s2 r hs2 hr
  have hne := slash_ne_right r
  simp only [getUniqueURLs, buildMap, h1, h2, lookupVal, setVal, Option.getD,
    mergeSlash, keysOf, mergeStep, emitURL, List.map, List.foldl, if_pos, if_neg hne,
    Option.map, if_true]

end WebApis

namespace WebApis

theorem getUnique_rest_then_slash (s1 s2 r : String) (hs1 : s1 = "http" ∨ s1 = "https")
    (hs2 : s2 = "http" ∨ s2 = "https") (hr : listOK r.data = true) :
    getUniqueURLs [s1 ++ "://" ++ r, s2 ++ "://" ++ (r ++ "/")] =
      some [(jsStrSort (jsUniq (pushScheme [] s2 ++ pushScheme [] s1))).getLast?.getD "undefined"
        ++ "://" ++ (r ++ "/")] := by
  have h1 := jsMatch_scheme s1 r hs1 hr
  have h2 := jsMatch_scheme s2 (r ++ "/") hs2 (listOK_slash r hr)
  have hne := slash_ne_right r
  have hne2 := slash_ne_left r
  have hne3 := slash_ne_right (r ++ "/")
  simp only [getUniqueURLs, buildMap, h1, h2, lookupVal, setVal, delKey, Option.getD,
    mergeSlash, keysOf, mergeStep, emitURL, List.map, List.foldl, if_pos, if_neg hne,
    if_neg hne2, if_neg hne3, Option.map, if_true]

theorem getUnique_slash_then_rest (s1 s2 r : String) (hs1 : s1 = "http" ∨ s1 = "https")
    (hs2 : s2 = "http" ∨ s2 = "https") (hr : listOK r.data = true) :
    getUniqueURLs [s1 ++ "://" ++ (r ++ "/"), s2 ++ "://" ++ r] =
      some [(jsStrSort (jsUniq (pushScheme [] s1 ++ pushScheme [] s2))).getLast?.getD "undefined"
        ++ "://" ++ (r ++ "/")] := by
  have h1 := jsMatch_scheme s1 (r ++ "/") hs1 (listOK_slash r hr)
  have h2 := jsMatch_scheme s2 r hs2 hr
  have hne := slash_ne_right r
  have hne2 := slash_ne_left r
  have hne3 := slash_ne_right (r ++ "/")
  have hne4 := two_slash_ne r
  simp only [getUniqueURLs, buildMap, h1, h2, lookupVal, setVal, delKey, Option.getD,
    mergeSlash, keysOf, mergeStep, emitURL, List.map, List.foldl, if_pos, if_neg hne,
    if_neg hne2, if_neg hne3, if_neg hne4, Option.map, if_true]

end WebApis

namespace WebApis

theorem pushScheme_final (s1 s2 : String) (hs1 : s1 = "http" ∨ s1 = "https")
    (hs2 : s2 = "http" ∨ s2 = "https") :
    (pushScheme (pushScheme [] s1) s2).getLast?.getD "undefined" = maxScheme s1 s2 := by
  rcases hs1 with h1 | h1 <;> rcases hs2 with h2 | h2 <;> subst h1 <;> subst h2 <;> decide

theorem mergeVal_final (s1 s2 : String) (hs1 : s1 = "http" ∨ s1 = "https")
    (hs2 : s2 = "http" ∨ s2 = "https") :
    (jsStrSort (jsUniq (pushScheme [] s1 ++ pushScheme [] s2))).getLast?.getD "undefined"
      = maxScheme s1 s2 := by
  rcases hs1 with h1 | h1 <;> rcases hs2 with h2 | h2 <;> subst h1 <;> subst h2 <;> decide

theorem maxScheme_comm (s1 s2 : String) (hs1 : s1 = "http" ∨ s1 = "https")
    (hs2 : s2 = "http" ∨ s2 = "https") : maxScheme s2 s1 = maxScheme s1 s2 := by
  rcases hs1 with h1 | h1 <;> rcases hs2 with h2 | h2 <;> subst h1 <;> subst h2 <;> decide

/-- C6: `["http://a.com", "https://a.com/"]` canonicalizes to exactly
`["https://a.com/"]`; in general, two raw URLs differing only by scheme or
trailing slash yield exactly one canonical URL, preferring the
slash-terminated form and preferring `https` over `http` when both were
observed. -/
theorem getUniqueURLs_canonicalizes :
    getUniqueURLs ["http://a.com", "https://a.com/"] = some ["https://a.com/"] ∧
    ∀ s1 s2 r, (s1 = "http" ∨ s1 = "https") → (s2 = "http" ∨ s2 = "https") →
      listOK r.data = true →
      getUniqueURLs [s1 ++ "://" ++ r, s2 ++ "://" ++ r]
        = some [maxScheme s1 s2 ++ "://" ++ r] ∧
      getUniqueURLs [s1 ++ "://" ++ r, s2 ++ "://" ++ (r ++ "/")]
        = some [maxScheme s1 s2 ++ "://" ++ (r ++ "/")] ∧
      getUniqueURLs [s1 ++ "://" ++ (r ++ "/"), s2 ++ "://" ++ r]
        = some [maxScheme s1 s2 ++ "://" ++ (r ++ "/")] := by
  refine ⟨by decide, fun s1 s2 r hs1 hs2 hr => ⟨?_, ?_, ?_⟩⟩
  · rw [getUnique_same_rest s1 s2 r hs1 hs2 hr, pushScheme_final s1 s2 hs1 hs2]
  · rw [getUnique_rest_then_slash s1 s2 r hs1 hs2 hr, mergeVal_final s2 s1 hs2 hs1,
      maxScheme_comm s1 s2 hs1 hs2]
  · rw [getUnique_slash_then_rest s1 s2 r hs1 hs2 hr, mergeVal_final s1 s2 hs1 hs2]

theorem getUniqueURLs_canonicalizes_witness :
    getUniqueURLs ["http" ++ "://" ++ "b.com", "https" ++ "://" ++ ("b.com" ++ "/")]
      = some [maxScheme "http" "https" ++ "://" ++ ("b.com" ++ "/")] :=
  ((getUniqueURLs_canonicalizes.2 "http" "https" "b.com" (Or.inl rfl) (Or.inr rfl)
    (by decide)).2).1

end WebApis

namespace WebApis

/-! ### Association-list lemmas for the `urlMap` -/

theorem keysOf_mem_iff (m : UrlMap) (k : String) :
    k ∈ keysOf m ↔ ∃ v, (k, v) ∈ m := by
  unfold keysOf
  constructor
  · intro h
    rcases List.mem_map.mp h with ⟨kv, hkv, he⟩
    exact ⟨kv.2, by rwa [← he]⟩
  · rintro ⟨v, hv⟩
    exact List.mem_map.mpr ⟨(k, v), hv, rfl⟩

theorem lookupVal_none_iff (m : UrlMap) (k : String) :
    lookupVal m k = none ↔ k ∉ keysOf m := by
  induction m with
  | nil => simp [lookupVal, keysOf]
  | cons kv rest ih =>
    obtain ⟨k0, v0⟩ := kv
    simp only [lookupVal, keysOf, List.map_cons, List.mem_cons]
    by_cases h : k0 = k
    · subst h
      simp
    · rw [if_neg h]
      rw [ih]
      unfold keysOf
      constructor
      · intro hn
        rintro (he | hm)
        · exact h he.symm
        · exact hn hm
      · intro hn hm
        exact hn (Or.inr hm)

theorem lookupVal_some_mem (m : UrlMap) (k : String) (v : List String)
    (h : lookupVal m k = some v) : (k, v) ∈ m := by
  induction m with
  | nil => cases h
  | cons kv rest ih =>
    obtain ⟨k0, v0⟩ := kv
    simp only [lookupVal] at h
    by_cases he : k0 = k
    · subst he
      rw [if_pos rfl] at h
      cases h
      exact List.mem_cons_self _ _
    · rw [if_neg he] at h
      exact List.mem_cons_of_mem _ (ih h)

theorem lookupVal_some_keys (m : UrlMap) (k : String) (v : List String)
    (h : lookupVal m k = some v) : k ∈ keysOf m :=
  (keysOf_mem_iff m k).mpr ⟨v, lookupVal_some_mem m k v h⟩

theorem setVal_keys_present (m : UrlMap) (k : String) (v : List String)
    (h : k ∈ keysOf m) : keysOf (setVal m k v) = keysOf m := by
  induction m with
  | nil => simp [keysOf] at h
  | cons kv rest ih =>
    obtain ⟨k0, v0⟩ := kv
    simp only [setVal]
    by_cases he : k0 = k
    · rw [if_pos he]
      simp [keysOf]
    · rw [if_neg he]
      have hk : k ∈ keysOf rest := by
        rcases List.mem_cons.mp h with h1 | h1
        · exact absurd h1.symm he
        · exact h1
      have h2 := ih hk
      unfold keysOf at h2
      simp only [keysOf, List.map_cons, h2]

theorem setVal_absent (m : UrlMap) (k : String) (v : List String)
    (h : k ∉ keysOf m) : setVal m k v = m ++ [(k, v)] := by
  induction m with
  | nil => rfl
  | cons kv rest ih =>
    obtain ⟨k0, v0⟩ := kv
    simp only [setVal]
    have hne : k0 ≠ k := by
      intro he
      exact h (by simp [keysOf, he])
    rw [if_neg hne, List.cons_append]
    congr 1
    exact ih (fun hm => h (by simp [keysOf] at hm ⊢; exact Or.inr hm))

theorem setVal_mem (m : UrlMap) (k : String) (v : List String) (kv : String × List String)
    (h : kv ∈ setVal m k v) : kv ∈ m ∨ kv = (k, v) := by
  induction m with
  | nil =>
    simp only [setVal] at h
    rcases List.mem_singleton.mp h with he
    exact Or.inr he
  | cons kv0 rest ih =>
    obtain ⟨k0, v0⟩ := kv0
    simp only [setVal] at h
    by_cases he : k0 = k
    · rw [if_pos he] at h
      rcases List.mem_cons.mp h with h1 | h1
      · exact Or.inr (by rw [h1, he])
      · exact Or.inl (List.mem_cons_of_mem _ h1)
    · rw [if_neg he] at h
      rcases List.mem_cons.mp h with h1 | h1
      · exact Or.inl (h1 ▸ List.mem_cons_self _ _)
      · rcases ih h1 with h2 | h2
        · exact Or.inl (List.mem_cons_of_mem _ h2)
        · exact Or.inr h2

theorem delKey_mem (m : UrlMap) (k : String) (kv : String × List String) :
    kv ∈ delKey m k ↔ kv ∈ m ∧ kv.1 ≠ k := by
  induction m with
  | nil => simp [delKey]
  | cons kv0 rest ih =>
    simp only [delKey]
    by_cases he : kv0.1 = k
    · rw [if_pos he, ih]
      constructor
      · rintro ⟨h1, h2⟩
        exact ⟨List.mem_cons_of_mem _ h1, h2⟩
      · rintro ⟨h1, h2⟩
        rcases List.mem_cons.mp h1 with h3 | h3
        · exact absurd (h3 ▸ he) h2
        · exact ⟨h3, h2⟩
    · rw [if_neg he]
      simp only [List.mem_cons, ih]
      constructor
      · rintro (h1 | ⟨h1, h2⟩)
        · exact ⟨Or.inl h1, h1 ▸ he⟩
        · exact ⟨Or.inr h1, h2⟩
      · rintro ⟨h1 | h1, h2⟩
        · exact Or.inl h1
        · exact Or.inr ⟨h1, h2⟩

theorem delKey_sublist (m : UrlMap) (k : String) : (delKey m k).Sublist m := by
  induction m with
  | nil => simp [delKey]
  | cons kv rest ih =>
    simp only [delKey]
    by_cases he : kv.1 = k
    · rw [if_pos he]
      exact ih.cons _
    · rw [if_neg he]
      exact ih.cons₂ _

theorem keysOf_delKey_not_mem (m : UrlMap) (k : String) : k ∉ keysOf (delKey m k) := by
  intro h
  rcases (keysOf_mem_iff _ _).mp h with ⟨v, hv⟩
  exact ((delKey_mem m k (k, v)).mp hv).2 rfl

theorem keysOf_append (m1 m2 : UrlMap) : keysOf (m1 ++ m2) = keysOf m1 ++ keysOf m2 := by
  simp [keysOf]

end WebApis

namespace WebApis

/-! ### Invariants of the scheme map -/

theorem jsMatch_shape (u : String) (s r : String)
    (h : jsMatch u = some (s, r)) :
    (s = "http" ∨ s = "https") ∧ listOK r.data = true := by
  unfold jsMatch at h
  split at h
  · split at h
    · cases h
      refine ⟨Or.inr rfl, ?_⟩
      assumption
    · cases h
  · split at h
    · cases h
      refine ⟨Or.inl rfl, ?_⟩
      assumption
    · cases h
  · cases h

theorem pushScheme_good (ss : List String) (s : String)
    (hss : ∀ x ∈ ss, x = "http" ∨ x = "https") (hs : s = "http" ∨ s = "https") :
    pushScheme ss s ≠ [] ∧ ∀ x ∈ pushScheme ss s, x = "http" ∨ x = "https" := by
  have hsort : ∀ x ∈ jsStrSort (ss ++ [s]), x = "http" ∨ x = "https" := by
    intro x hx
    rcases List.mem_append.mp ((jsStrSort_perm (ss ++ [s])).mem_iff.mp hx) with h | h
    · exact hss x h
    · rw [List.mem_singleton.mp h]; exact hs
  have hsortne : jsStrSort (ss ++ [s]) ≠ [] := by
    intro hcon
    have := (jsStrSort_perm (ss ++ [s])).length_eq
    rw [hcon] at this
    simp at this
  unfold pushScheme
  cases hh : (ss.filter (fun x => x = s)).head? with
  | none => exact ⟨hsortne, hsort⟩
  | some s0 =>
    dsimp only
    by_cases he : s0 = ""
    · rw [if_pos he]
      exact ⟨hsortne, hsort⟩
    · rw [if_neg he]
      refine ⟨?_, hss⟩
      intro hcon
      subst hcon
      simp at hh

theorem goodMap_nil : GoodMap [] := ⟨List.nodup_nil, by simp⟩

theorem buildMap_good :
    ∀ (urls : List String) (m m2 : UrlMap), GoodMap m → buildMap urls m = some m2 →
      GoodMap m2 := by
  intro urls
  induction urls with
  | nil =>
    intro m m2 hm h
    cases h
    exact hm
  | cons url rest ih =>
    intro m m2 hm h
    simp only [buildMap] at h
    cases hj : jsMatch url with
    | none => rw [hj] at h; cases h
    | some sk =>
      obtain ⟨s, k⟩ := sk
      rw [hj] at h
      have hshape := jsMatch_shape url s k hj
      refine ih _ m2 ?_ h
      have hval : ∀ v0, lookupVal m k = some v0 → ∀ x ∈ v0, x = "http" ∨ x = "https" := by
        intro v0 hv0
        exact ((hm.2 (k, v0) (lookupVal_some_mem m k v0 hv0)).2).2
      have hpush : pushScheme ((lookupVal m k).getD []) s ≠ [] ∧
          ∀ x ∈ pushScheme ((lookupVal m k).getD []) s, x = "http" ∨ x = "https" := by
        cases hlk : lookupVal m k with
        | none => exact pushScheme_good [] s (by simp) hshape.1
        | some v0 => exact pushScheme_good v0 s (hval v0 hlk) hshape.1
      constructor
      · by_cases hk : k ∈ keysOf m
        · rw [setVal_keys_present m k _ hk]
          exact hm.1
        · rw [setVal_absent m k _ hk]
          have hkeq : keysOf (m ++ [(k, pushScheme ((lookupVal m k).getD []) s)])
              = keysOf m ++ [k] := by
            rw [keysOf_append]
            rfl
          rw [hkeq, List.nodup_append]
          refine ⟨hm.1, List.nodup_singleton _, ?_⟩
          intro a ha hb
          rw [List.mem_singleton] at hb
          subst hb
          exact hk ha
      · intro kv hkv
        rcases setVal_mem m k _ kv hkv with h1 | h1
        · exact hm.2 kv h1
        · subst h1
          exact ⟨hshape.2, hpush.1, hpush.2⟩

end WebApis

namespace WebApis

theorem mergeStep_keys_sub (m : UrlMap) (u k : String)
    (h : k ∈ keysOf (mergeStep m u)) : k ∈ keysOf m := by
  unfold mergeStep at h
  cases hlk : lookupVal m (u ++ "/") with
  | none => rw [hlk] at h; exact h
  | some ss =>
    rw [hlk] at h
    dsimp only at h
    rcases (keysOf_mem_iff _ _).mp h with ⟨v, hv⟩
    have h2 := ((delKey_mem _ _ _).mp hv).1
    rcases setVal_mem _ _ _ _ h2 with h3 | h3
    · exact (keysOf_mem_iff _ _).mpr ⟨v, h3⟩
    · have hk1 := congrArg Prod.fst h3
      simp only at hk1
      rw [hk1]
      exact lookupVal_some_keys m _ ss hlk

theorem foldl_keys_sub :
    ∀ (ls : List String) (m : UrlMap) (k : String),
      k ∈ keysOf (ls.foldl mergeStep m) → k ∈ keysOf m := by
  intro ls
  induction ls with
  | nil => intro m k h; exact h
  | cons u rest ih =>
    intro m k h
    simp only [List.foldl_cons] at h
    exact mergeStep_keys_sub m u k (ih _ k h)

theorem goodVal_mergeVal (ss old : List String) (hne : ss ≠ [])
    (hss : ∀ x ∈ ss, x = "http" ∨ x = "https")
    (hold : ∀ x ∈ old, x = "http" ∨ x = "https") :
    GoodVal (jsStrSort (jsUniq (ss ++ old))) := by
  constructor
  · intro hcon
    have h1 := (jsStrSort_perm (jsUniq (ss ++ old))).length_eq
    rw [hcon] at h1
    have h2 : jsUniq (ss ++ old) ≠ [] := by
      apply jsUniq_ne_nil
      intro hc
      exact hne (List.append_eq_nil.mp hc).1
    cases hu : jsUniq (ss ++ old) with
    | nil => exact h2 hu
    | cons a b => rw [hu] at h1; simp at h1
  · intro x hx
    have h1 := (jsStrSort_perm (jsUniq (ss ++ old))).mem_iff.mp hx
    have h2 := (jsUniq_mem _ x).mp h1
    rcases List.mem_append.mp h2 with h3 | h3
    · exact hss x h3
    · exact hold x h3

theorem mergeStep_good (m : UrlMap) (u : String) (hm : GoodMap m) :
    GoodMap (mergeStep m u) := by
  unfold mergeStep
  cases hlk : lookupVal m (u ++ "/") with
  | none => exact hm
  | some ss =>
    dsimp only
    have hmem := lookupVal_some_mem m _ ss hlk
    have hgv : GoodVal ss := (hm.2 _ hmem).2
    have hkin : (u ++ "/") ∈ keysOf m := lookupVal_some_keys m _ ss hlk
    have hold : ∀ x ∈ (lookupVal m u).getD [], x = "http" ∨ x = "https" := by
      cases hlo : lookupVal m u with
      | none => simp
      | some v0 =>
        intro x hx
        exact ((hm.2 _ (lookupVal_some_mem m u v0 hlo)).2).2 x (by simpa using hx)
    have hgv2 : GoodVal (jsStrSort (jsUniq (ss ++ (lookupVal m u).getD []))) :=
      goodVal_mergeVal ss _ hgv.1 hgv.2 hold
    constructor
    · have h1 : keysOf (setVal m (u ++ "/") (jsStrSort (jsUniq (ss ++ (lookupVal m u).getD []))))
          = keysOf m := setVal_keys_present _ _ _ hkin
      have h2 := (delKey_sublist (setVal m (u ++ "/")
        (jsStrSort (jsUniq (ss ++ (lookupVal m u).getD [])))) u).map Prod.fst
      have h3 : (keysOf (delKey (setVal m (u ++ "/")
          (jsStrSort (jsUniq (ss ++ (lookupVal m u).getD [])))) u)).Sublist (keysOf m) := by
        unfold keysOf
        unfold keysOf at h1
        rw [← h1]
        exact h2
      exact h3.nodup hm.1
    · intro kv hkv
      have h4 := ((delKey_mem _ _ _).mp hkv).1
      rcases setVal_mem _ _ _ _ h4 with h5 | h5
      · exact hm.2 kv h5
      · rcases (keysOf_mem_iff m (u ++ "/")).mp hkin with ⟨w, hw⟩
        rw [h5]
        exact ⟨(hm.2 _ hw).1, hgv2⟩

theorem foldl_merge_good :
    ∀ (ls : List String) (m : UrlMap), GoodMap m → GoodMap (ls.foldl mergeStep m) := by
  intro ls
  induction ls with
  | nil => intro m hm; exact hm
  | cons u rest ih =>
    intro m hm
    simp only [List.foldl_cons]
    exact ih _ (mergeStep_good m u hm)

theorem mergeSlash_good (m : UrlMap) (hm : GoodMap m) : GoodMap (mergeSlash m) :=
  foldl_merge_good _ m hm

theorem mergeStep_removes (m : UrlMap) (u : String) (ss : List String)
    (hlk : lookupVal m (u ++ "/") = some ss) : u ∉ keysOf (mergeStep m u) := by
  unfold mergeStep
  rw [hlk]
  dsimp only
  exact keysOf_delKey_not_mem _ _

theorem foldl_no_pair :
    ∀ (ls : List String) (m : UrlMap) (k : String), k ∈ ls →
      k ∈ keysOf (ls.foldl mergeStep m) → (k ++ "/") ∉ keysOf (ls.foldl mergeStep m) := by
  intro ls
  induction ls with
  | nil => intro m k h; exact absurd h (List.not_mem_nil k)
  | cons u rest ih =>
    intro m k hk hkin
    simp only [List.foldl_cons] at hkin ⊢
    rcases List.mem_cons.mp hk with he | hr
    · subst he
      cases hlk : lookupVal m (k ++ "/") with
      | some ss =>
        exact absurd (foldl_keys_sub rest _ k hkin) (mergeStep_removes m k ss hlk)
      | none =>
        intro hcon
        have h2 : (k ++ "/") ∈ keysOf (mergeStep m k) := foldl_keys_sub rest _ _ hcon
        have h3 : mergeStep m k = m := by unfold mergeStep; rw [hlk]
        rw [h3] at h2
        exact (lookupVal_none_iff m (k ++ "/")).mp hlk h2
    · exact ih _ k hr hkin

theorem mergeSlash_noSlashPairs (m : UrlMap) : NoSlashPairs (mergeSlash m) := by
  intro k hk
  exact foldl_no_pair (keysOf m) m k (foldl_keys_sub _ _ _ hk) hk

end WebApis

namespace WebApis

theorem pushScheme_nil (s : String) : pushScheme [] s = [s] := rfl

theorem goodVal_last (ss : List String) (h : GoodVal ss) :
    ss.getLast?.getD "undefined" ∈ ss := by
  rcases h with ⟨hne, _⟩
  rw [List.getLast?_eq_getLast ss hne]
  exact List.getLast_mem hne

theorem buildMap_emit :
    ∀ (m acc : UrlMap),
      (∀ kv ∈ m, listOK kv.1.data = true ∧ GoodVal kv.2) →
      (keysOf m).Nodup →
      (∀ kv ∈ m, kv.1 ∉ keysOf acc) →
      buildMap (m.map emitURL) acc
        = some (acc ++ m.map (fun kv => (kv.1, [kv.2.getLast?.getD "undefined"]))) := by
  intro m
  induction m with
  | nil => intro acc _ _ _; simp [buildMap]
  | cons kv rest ih =>
    intro acc hgood hnodup hdisj
    obtain ⟨k, ss⟩ := kv
    have hgv : GoodVal ss := (hgood (k, ss) (List.mem_cons_self _ _)).2
    have hok : listOK k.data = true := (hgood (k, ss) (List.mem_cons_self _ _)).1
    have hlast := goodVal_last ss hgv
    have hs := hgv.2 _ hlast
    have hj : jsMatch (emitURL (k, ss)) = some (ss.getLast?.getD "undefined", k) := by
      unfold emitURL
      exact jsMatch_scheme _ k hs hok
    simp only [List.map_cons, buildMap, hj]
    have hlkacc : lookupVal acc k = none :=
      (lookupVal_none_iff acc k).mpr (hdisj (k, ss) (List.mem_cons_self _ _))
    rw [hlkacc]
    rw [Option.getD_none]
    rw [pushScheme_nil]
    rw [setVal_absent acc k _ ((lookupVal_none_iff acc k).mp hlkacc)]
    have hknotrest : k ∉ keysOf rest := by
      unfold keysOf at hnodup
      rw [List.map_cons, List.nodup_cons] at hnodup
      exact hnodup.1
    rw [ih (acc ++ [(k, [ss.getLast?.getD "undefined"])])
      (fun kv2 h2 => hgood kv2 (List.mem_cons_of_mem _ h2))
      (by
        unfold keysOf at hnodup ⊢
        rw [List.map_cons, List.nodup_cons] at hnodup
        exact hnodup.2)
      (by
        intro kv2 h2
        rw [keysOf_append, List.mem_append]
        rintro (h3 | h3)
        · exact hdisj kv2 (List.mem_cons_of_mem _ h2) h3
        · have h4 : kv2.1 = k := by simpa [keysOf] using h3
          exact hknotrest (h4 ▸ (keysOf_mem_iff _ _).mpr ⟨kv2.2, h2⟩))]
    rw [List.append_assoc]
    rfl

theorem foldl_merge_id :
    ∀ (ls : List String) (m : UrlMap),
      (∀ k ∈ ls, lookupVal m (k ++ "/") = none) → ls.foldl mergeStep m = m := by
  intro ls
  induction ls with
  | nil => intro m _; rfl
  | cons u rest ih =>
    intro m h
    simp only [List.foldl_cons]
    have h1 : mergeStep m u = m := by
      unfold mergeStep
      rw [h u (List.mem_cons_self _ _)]
    rw [h1]
    exact ih m (fun k hk => h k (List.mem_cons_of_mem _ hk))

theorem mergeSlash_id (m : UrlMap) (h : NoSlashPairs m) : mergeSlash m = m := by
  unfold mergeSlash
  exact foldl_merge_id _ m (fun k hk => (lookupVal_none_iff _ _).mpr (h k hk))

theorem scheme_url_inj (s1 s2 r1 r2 : String)
    (hs1 : s1 = "http" ∨ s1 = "https") (hs2 : s2 = "http" ∨ s2 = "https")
    (h : s1 ++ "://" ++ r1 = s2 ++ "://" ++ r2) : r1 = r2 := by
  rcases hs1 with h1 | h1 <;> rcases hs2 with h2 | h2 <;> subst h1 <;> subst h2
  · rw [str_as_http r1, str_as_http r2] at h
    injection h with hd
    simp only [List.cons.injEq, true_and] at hd
    exact String.ext hd
  · rw [str_as_http r1, str_as_https r2] at h
    injection h with hd
    simp only [List.cons.injEq, true_and] at hd
    exact absurd hd.1 (by decide)
  · rw [str_as_https r1, str_as_http r2] at h
    injection h with hd
    simp only [List.cons.injEq, true_and] at hd
    exact absurd hd.1 (by decide)
  · rw [str_as_https r1, str_as_https r2] at h
    injection h with hd
    simp only [List.cons.injEq, true_and] at hd
    exact String.ext hd

theorem nodup_keys_inj (m : UrlMap) (h : (keysOf m).Nodup)
    (a b : String × List String) (ha : a ∈ m) (hb : b ∈ m) (he : a.1 = b.1) : a = b := by
  induction m with
  | nil => cases ha
  | cons kv rest ih =>
    unfold keysOf at h
    rw [List.map_cons, List.nodup_cons] at h
    rcases List.mem_cons.mp ha with ha1 | ha1 <;> rcases List.mem_cons.mp hb with hb1 | hb1
    · rw [ha1, hb1]
    · exfalso
      subst ha1
      apply h.1
      rw [he]
      exact (keysOf_mem_iff _ _).mpr ⟨b.2, hb1⟩
    · exfalso
      subst hb1
      apply h.1
      rw [← he]
      exact (keysOf_mem_iff _ _).mpr ⟨a.2, ha1⟩
    · exact ih h.2 ha1 hb1

theorem canonical_out_nodup (mf : UrlMap) (hgood : GoodMap mf) :
    (mf.map emitURL).Nodup := by
  have hmfnodup : mf.Nodup := List.Nodup.of_map Prod.fst hgood.1
  refine List.Nodup.map_on ?_ hmfnodup
  intro x hx y hy he
  have hgx := (hgood.2 x hx).2
  have hgy := (hgood.2 y hy).2
  have hsx := hgx.2 _ (goodVal_last x.2 hgx)
  have hsy := hgy.2 _ (goodVal_last y.2 hgy)
  unfold emitURL at he
  exact nodup_keys_inj mf hgood.1 x y hx hy (scheme_url_inj _ _ _ _ hsx hsy he)

theorem getUniqueURLs_nodup (urls out : List String)
    (h : getUniqueURLs urls = some out) : out.Nodup := by
  unfold getUniqueURLs at h
  cases hb : buildMap urls [] with
  | none => rw [hb] at h; cases h
  | some m =>
    rw [hb] at h
    dsimp only [Option.map] at h
    have hout : out = (mergeSlash m).map emitURL := by
      cases h
      rfl
    rw [hout]
    exact canonical_out_nodup _ (mergeSlash_good m (buildMap_good urls [] m goodMap_nil hb))

theorem getUniqueURLs_roundtrip (urls out : List String)
    (h : getUniqueURLs urls = some out) : getUniqueURLs out = some out := by
  unfold getUniqueURLs at h
  cases hb : buildMap urls [] with
  | none => rw [hb] at h; cases h
  | some m =>
    rw [hb] at h
    dsimp only [Option.map] at h
    have hout : out = (mergeSlash m).map emitURL := by
      cases h
      rfl
    have hgood : GoodMap (mergeSlash m) :=
      mergeSlash_good m (buildMap_good urls [] m goodMap_nil hb)
    have hnsp : NoSlashPairs (mergeSlash m) := mergeSlash_noSlashPairs m
    unfold getUniqueURLs
    rw [hout]
    rw [buildMap_emit (mergeSlash m) [] hgood.2 hgood.1 (by intro kv _; simp [keysOf])]
    dsimp only [Option.map]
    rw [List.nil_append]
    have hkeys : keysOf ((mergeSlash m).map
        (fun kv => (kv.1, [kv.2.getLast?.getD "undefined"]))) = keysOf (mergeSlash m) := by
      unfold keysOf
      rw [List.map_map]
      rfl
    have hnsp2 : NoSlashPairs ((mergeSlash m).map
        (fun kv => (kv.1, [kv.2.getLast?.getD "undefined"]))) := by
      intro k hk
      rw [hkeys] at hk ⊢
      exact hnsp k hk
    rw [mergeSlash_id _ hnsp2]
    rw [List.map_map]
    congr 1

/-- C7: `getUniqueURLs` is idempotent — feeding its own output back returns
the same URL list — and its output never contains duplicates. -/
theorem getUniqueURLs_idempotent (urls : List String) :
    (getUniqueURLs urls).bind getUniqueURLs = getUniqueURLs urls ∧
    ((getUniqueURLs urls).getD []).Nodup := by
  cases h : getUniqueURLs urls with
  | none => simp
  | some out =>
    refine ⟨?_, by simpa using getUniqueURLs_nodup urls out h⟩
    simpa using getUniqueURLs_roundtrip urls out h

end WebApis

namespace WebApis

theorem scrape_one_url (step : String → Except String ParseRecord)
    (h : ∀ u r, step u = .ok r → r.url = u) (u : String) :
    (match step u with
     | .ok rec => rec
     | .error _ => ({ url := u, parses := [] } : ParseRecord)).url = u := by
  cases hs : step u with
  | ok r => exact h u r hs
  | error e => rfl

theorem scrapeURLs_map_url (step : String → Except String ParseRecord)
    (h : ∀ u r, step u = .ok r → r.url = u) :
    ∀ urls : List String, (scrapeURLs step urls).map ParseRecord.url = urls := by
  intro urls
  induction urls with
  | nil => rfl
  | cons u rest ih =>
    unfold scrapeURLs at ih ⊢
    simp only [List.map_cons]
    rw [scrape_one_url step h u, ih]

/-- C8 (amended): provided each successful per-URL step returns a record
bearing the URL it was invoked for — which the fresh-parse and catch paths
always do, and the cache-hit path does exactly when no two URLs of the run
collide under `getCacheFileName` — every dataset written to durable storage
by `importHTTP` and by `importIDL` is sorted ascending by the `url` field
and contains at most one record per URL. Without that proviso the
uniqueness invariant fails, see the cache-collision counterexample. -/
theorem dataset_sorted_unique
    (f s g : String → Except String ParseRecord) (prev : Option (List ParseRecord))
    (urls urls2 : List String) (d : List ParseRecord)
    (hf : ∀ u r, f u = .ok r → r.url = u)
    (hg : ∀ u r, g u = .ok r → r.url = u)
    (hrun : importHTTP f s prev urls = .ok d) :
    (List.Pairwise urlSortLe d ∧ (d.map ParseRecord.url).Nodup) ∧
    (List.Pairwise urlSortLe (importIDL g urls2) ∧
      ((importIDL g urls2).map ParseRecord.url).Nodup) := by
  constructor
  · obtain ⟨us, hus, hd⟩ :
        ∃ us, getUniqueURLs urls = some us ∧ d = sortByURL (scrapeURLs f us) := by
      unfold importHTTP at hrun
      cases hgu : getUniqueURLs urls with
      | none => rw [hgu] at hrun; cases hrun
      | some us => rw [hgu] at hrun; exact ⟨us, rfl, retryLoop_ok _ _ _ _ hrun⟩
    subst hd
    refine ⟨sortByURL_sorted _, ?_⟩
    rw [((sortByURL_perm (scrapeURLs f us)).map ParseRecord.url).nodup_iff]
    rw [scrapeURLs_map_url f hf us]
    exact getUniqueURLs_nodup urls us hus
  · have hidl : importIDL g urls2 = scrapeURLs g (jsStrSort (jsUniq urls2)) := rfl
    rw [hidl]
    constructor
    · unfold scrapeURLs
      rw [List.pairwise_map]
      refine (jsStrSort_sorted (jsUniq urls2)).imp ?_
      intro a b hab
      unfold urlSortLe
      rw [scrape_one_url g hg a, scrape_one_url g hg b]
      exact hab
    · rw [scrapeURLs_map_url g hg _]
      exact ((jsStrSort_perm (jsUniq urls2)).nodup_iff).mpr (jsUniq_nodup urls2)

theorem dataset_sorted_unique_witness :
    (List.Pairwise urlSortLe [(⟨"https://a.com/", [1]⟩ : ParseRecord)] ∧
      ([(⟨"https://a.com/", [1]⟩ : ParseRecord)].map ParseRecord.url).Nodup) ∧
    (List.Pairwise urlSortLe
        (importIDL (fun u => .ok ⟨u, [2]⟩) ["http://b.com", "http://a.com"]) ∧
      ((importIDL (fun u => .ok ⟨u, [2]⟩)
          ["http://b.com", "http://a.com"]).map ParseRecord.url).Nodup) :=
  dataset_sorted_unique (fun u => .ok ⟨u, [1]⟩) (fun u => .ok ⟨u, [1]⟩)
    (fun u => .ok ⟨u, [2]⟩) none ["https://a.com/"] ["http://b.com", "http://a.com"]
    [⟨"https://a.com/", [1]⟩]
    (fun u r h => by cases h; rfl)
    (fun u r h => by cases h; rfl)
    (by decide)

/-- C8 counterexample: the uniqueness invariant does not hold
unconditionally. The canonical URLs `https://a.com/` and `https://a.com_`
are distinct but share the cache key computed by `getCacheFileName`, so
with the parse-record cache populated for that key, `parse`'s cache-hit
fast path (lines 212-216) returns the cached record — whose `url` field is
the *stored* URL — for both of them. The dataset importHTTP then writes
contains two records with the same `url`. -/
theorem importHTTP_duplicate_record_urls :
    getCacheFileName "https://a.com/" = getCacheFileName "https://a.com_" ∧
    importHTTP
      (fun u => Except.map Prod.fst
        (parse (fun _ => none) (some ⟨"https://a.com_", [1]⟩) u [""]))
      (fun u => Except.map Prod.fst
        (parse (fun _ => none) (some ⟨"https://a.com_", [1]⟩) u [""]))
      none ["https://a.com/", "https://a.com_"]
      = .ok [⟨"https://a.com_", [1]⟩, ⟨"https://a.com_", [1]⟩] ∧
    ¬ (([⟨"https://a.com_", [1]⟩, ⟨"https://a.com_", [1]⟩] : List ParseRecord).map
        ParseRecord.url).Nodup := by decide

end WebApis
